import Mathlib

/-!
Shallow embedding of the expense-extraction pipelines of
`extract_expense.py` and `llm_extract.py` (backend-contapro), together
with theorems about the field detectors, the record assembler and the
CLI boundary behaviour.

Strings are modelled as their character lists (`String.data`); Python
regular-expression searches are modelled by explicit leftmost scanners
that follow the greedy semantics of the concrete patterns used in the
source.  Monetary values, which in the source flow through `float` on
tokens with at most two decimal digits, are modelled exactly as
integer cents (such tokens are exactly representable, and `"%.2f"`
formatting recovers the same two-decimal string).
-/

namespace ContaPro

/-- Whitespace class shared by `str.strip()` and the regex class `\s`
for the ASCII inputs the detectors handle. -/
def isSpc (c : Char) : Bool :=
  c = ' ' || c = '\t' || c = '\n' || c = '\r' || c = '\x0b' || c = '\x0c'

/-- Decimal digit, the regex class `\d`. -/
def isDig (c : Char) : Bool := 48 ≤ c.toNat && c.toNat ≤ 57

/-- ASCII uppercasing of one character, modelling `str.upper()`. -/
def upChar (c : Char) : Char :=
  if 97 ≤ c.toNat && c.toNat ≤ 122 then Char.ofNat (c.toNat - 32) else c

/-- ASCII lowercasing of one character, modelling `str.lower()`. -/
def lowChar (c : Char) : Char :=
  if 65 ≤ c.toNat && c.toNat ≤ 90 then Char.ofNat (c.toNat + 32) else c

def upStr (s : List Char) : List Char := s.map upChar

def lowStr (s : List Char) : List Char := s.map lowChar

/-- Python substring containment (`pat in s`). -/
def containsSeq (pat : List Char) : List Char → Bool
  | [] => pat.isEmpty
  | c :: cs => pat.isPrefixOf (c :: cs) || containsSeq pat cs

/-- Leftmost-match scanner: apply the position matcher `p` at every
suffix, left to right, modelling `re.search`. -/
def searchIt {α : Type} (p : List Char → Option α) : List Char → Option α
  | [] => none
  | c :: cs =>
    match p (c :: cs) with
    | some r => some r
    | none => searchIt p cs

/-- Remove trailing whitespace. -/
def dropTrail (l : List Char) : List Char := (l.reverse.dropWhile isSpc).reverse

/-- Python `str.strip()`. -/
def stripWS (l : List Char) : List Char := dropTrail (l.dropWhile isSpc)

/-- One pass of `re.sub(r"\s+", " ", t)`: each maximal whitespace run
becomes a single blank; the flag records whether the previous character
was part of a run already replaced. -/
def collapseAux : Bool → List Char → List Char
  | _, [] => []
  | prevSp, c :: cs =>
    if isSpc c then
      if prevSp then collapseAux true cs else ' ' :: collapseAux true cs
    else c :: collapseAux false cs

/-- Treatment of a single line inside `clean_text`: strip, drop if the
result is empty, else collapse inner whitespace runs. -/
def cleanLine (s : String) : Option String :=
  let t := stripWS s.data
  if t.isEmpty then none else some (String.mk (collapseAux false t))

/-- `clean_text` from `extract_expense.py`. -/
def clean_text (lines : List String) : List String := lines.filterMap cleanLine

/-- `sep.join(lines)` on character lists. -/
def joinStr (sep : List Char) : List String → List Char
  | [] => []
  | [s] => s.data
  | s :: t :: rest => s.data ++ sep ++ joinStr sep (t :: rest)

/-- `detect_tipo` from `extract_expense.py`. -/
def detect_tipo (lines : List String) : String :=
  let joined := lowStr (joinStr [' '] lines)
  if containsSeq "factura".data joined then "factura"
  else if containsSeq "boleta".data joined || containsSeq "ticket".data joined then "boleta"
  else ""

/-- Month alternatives `0[1-9]|1[0-2]` of the date patterns. -/
def mmOk (a b : Char) : Bool :=
  (a = '0' && 49 ≤ b.toNat && b.toNat ≤ 57) || (a = '1' && (b = '0' || b = '1' || b = '2'))

/-- Day alternatives `0[1-9]|[12]\d|3[01]` of the date patterns. -/
def ddOk (a b : Char) : Bool :=
  (a = '0' && 49 ≤ b.toNat && b.toNat ≤ 57) || ((a = '1' || a = '2') && isDig b)
    || (a = '3' && (b = '0' || b = '1'))

/-- Date separator class: a dash or a slash. -/
def sepOkD (c : Char) : Bool := c = '-' || c = '/'

/-- Position matcher for the pattern `(20\d{2}) sep (0[1-9]|1[0-2]) sep (0[1-9]|[12]\d|3[01])`
with `sep` a dash or slash; all alternatives have fixed width, so a
match is a 10-character window test. -/
def dateAAt : List Char → Option (List Char × List Char × List Char)
  | y1 :: y2 :: y3 :: y4 :: s1 :: m1 :: m2 :: s2 :: d1 :: d2 :: _ =>
    if y1 = '2' && y2 = '0' && isDig y3 && isDig y4 && sepOkD s1 && mmOk m1 m2
        && sepOkD s2 && ddOk d1 d2
    then some ([y1, y2, y3, y4], [m1, m2], [d1, d2]) else none
  | _ => none

/-- Position matcher for the pattern `(0[1-9]|[12]\d|3[01]) sep (0[1-9]|1[0-2]) sep (20\d{2})`. -/
def dateBAt : List Char → Option (List Char × List Char × List Char)
  | d1 :: d2 :: s1 :: m1 :: m2 :: s2 :: y1 :: y2 :: y3 :: y4 :: _ =>
    if ddOk d1 d2 && sepOkD s1 && mmOk m1 m2 && sepOkD s2 && y1 = '2' && y2 = '0'
        && isDig y3 && isDig y4
    then some ([d1, d2], [m1, m2], [y1, y2, y3, y4]) else none
  | _ => none

/-- One line of `detect_fecha`: pattern A is searched over the whole
line first, then pattern B; the captured groups are reordered to
`YYYY-MM-DD` (`len(g[0]) == 4` distinguishes the two patterns). -/
def dateLine (ln : String) : Option String :=
  match searchIt dateAAt ln.data with
  | some (y, m, d) => some (String.mk (y ++ '-' :: m ++ '-' :: d))
  | none =>
    match searchIt dateBAt ln.data with
    | some (d, m, y) => some (String.mk (y ++ '-' :: m ++ '-' :: d))
    | none => none

/-- `detect_fecha` from `extract_expense.py`: first matching line wins. -/
def detect_fecha : List String → String
  | [] => ""
  | ln :: rest =>
    match dateLine ln with
    | some d => d
    | none => detect_fecha rest

/-- `detect_moneda` from `extract_expense.py`. -/
def detect_moneda (lines : List String) : String :=
  let joined := upStr (joinStr [' '] lines)
  if containsSeq "PEN".data joined || containsSeq ['S', '/'] joined then "PEN"
  else if containsSeq "USD".data joined || containsSeq "US$".data joined
      || containsSeq ['$'] joined then "USD"
  else ""

/-- Python `str.replace(pat, rep)` (all non-overlapping occurrences,
left to right).  The fuel argument is the length of the scanned list;
every step consumes at least one character, so the fuel never runs out
on the initial call. -/
def replAll (pat rep : List Char) : Nat → List Char → List Char
  | _, [] => []
  | 0, s => s
  | n + 1, c :: cs =>
    if pat.isPrefixOf (c :: cs) then rep ++ replAll pat rep n ((c :: cs).drop pat.length)
    else c :: replAll pat rep n cs

/-- `re.findall(r"\d+\.?\d{0,2}", t)`: at each digit the maximal digit
run is taken, then an optional dot, then up to two more digits; the
scan resumes after the token.  Backtracking never applies because the
tail of the pattern matches the empty string. -/
def amountToks : Nat → List Char → List (List Char)
  | 0, _ => []
  | _ + 1, [] => []
  | n + 1, c :: cs =>
    if isDig c then
      let ds := (c :: cs).takeWhile isDig
      match (c :: cs).dropWhile isDig with
      | '.' :: r2 =>
        let fr := (r2.takeWhile isDig).take 2
        (ds ++ '.' :: fr) :: amountToks n (r2.drop fr.length)
      | rest => ds :: amountToks n rest
    else amountToks n cs

/-- All matches of `\d+\.?\d{0,2}` in a string. -/
def amountRuns (s : List Char) : List (List Char) := amountToks s.length s

/-- Numeric value of a digit run. -/
def digitsVal (ds : List Char) : Nat := ds.foldl (fun a c => 10 * a + (c.toNat - 48)) 0

/-- Value in cents of at most two fractional digits. -/
def fracCents : List Char → Nat
  | [] => 0
  | [a] => 10 * (a.toNat - 48)
  | a :: b :: _ => 10 * (a.toNat - 48) + (b.toNat - 48)

/-- Exact value in cents of a token of shape `digits [ '.' digits{0,2} ]`,
modelling `float()` on such tokens (which are exactly representable and
have at most two decimals). -/
def parseCents (s : List Char) : Nat :=
  let ip := s.takeWhile isDig
  match s.dropWhile isDig with
  | '.' :: fs => 100 * digitsVal ip + fracCents fs
  | _ => 100 * digitsVal ip

/-- Two-decimal rendering of an exact cents value, modelling the
f-string `"%.2f"` format on such values. -/
def formatCents (n : Nat) : String :=
  String.mk (Nat.toDigits 10 (n / 100) ++ '.' ::
    (if n % 100 < 10 then '0' :: Nat.toDigits 10 (n % 100) else Nat.toDigits 10 (n % 100)))

/-- Python `s.replace(pat, rep)`. -/
def pyReplace (pat rep s : List Char) : List Char := replAll pat rep s.length s

/-- Stages of `normalize_amount`: drop blanks and the currency markers
`S/`, `US$`, `$`, then turn the comma into a dot. -/
def cleanedAmount (txt : String) : List Char :=
  pyReplace [','] ['.']
    (pyReplace ['$'] []
      (pyReplace ['U', 'S', '$'] []
        (pyReplace ['S', '/'] []
          (pyReplace [' '] [] txt.data))))

/-- `normalize_amount` from `extract_expense.py`.  The source parses the
last extracted run with `float` and formats it back with two decimals;
on these runs the parse never fails, so the `except` branch is dead. -/
def normalize_amount (txt : String) : String :=
  match (amountRuns (cleanedAmount txt)).getLast? with
  | none => ""
  | some tok => formatCents (parseCents tok)

/-- `re.findall(r"\d+[\.,]\d{2}", ln)`: maximal digit run, one dot or
comma, exactly two digits.  Shrinking the greedy run can never repair a
failed match (the next character would be a digit, not a separator), so
on failure the scan resumes right after the run. -/
def moneyToks : Nat → List Char → List (List Char)
  | 0, _ => []
  | _ + 1, [] => []
  | n + 1, c :: cs =>
    if isDig c then
      let ds := (c :: cs).takeWhile isDig
      match (c :: cs).dropWhile isDig with
      | k :: r2 =>
        if k = '.' || k = ',' then
          match r2 with
          | a :: b :: r3 =>
            if isDig a && isDig b then (ds ++ k :: a :: b :: []) :: moneyToks n r3
            else moneyToks n (k :: r2)
          | _ => moneyToks n (k :: r2)
        else moneyToks n (k :: r2)
      | [] => []
    else moneyToks n cs

/-- All monetary-looking tokens of one line. -/
def moneyRuns (ln : String) : List (List Char) := moneyToks ln.data.length ln.data

/-- One character of `n.replace(",", ".")`. -/
def commaDot (c : Char) : Char := if c = ',' then '.' else c

/-- Value of a monetary token after `n.replace(",", ".")`, in cents. -/
def tokCents (tok : List Char) : Nat := parseCents (tok.map commaDot)

/-- Does the uppercased line contain the label `TOTAL`? -/
def hasTotalTok (ln : String) : Bool := containsSeq "TOTAL".data (upStr ln.data)

/-- Loop body of `detect_total`: fold state is the running maximum (in
cents) and the current `TOTAL`-labelled candidate string. -/
def totalStep (st : Nat × String) (ln : String) : Nat × String :=
  let toks := moneyRuns ln
  let mx := toks.foldl (fun a t => if tokCents t > a then tokCents t else a) st.1
  let tot :=
    if hasTotalTok ln then
      match toks.getLast? with
      | some t => normalize_amount (String.mk t)
      | none => st.2
    else st.2
  (mx, tot)

/-- `detect_total` from `extract_expense.py`. -/
def detect_total (lines : List String) : String :=
  let st := lines.foldl totalStep (0, "")
  if st.2 ≠ "" then st.2
  else if 0 < st.1 then formatCents st.1
  else ""

/-- The pattern `\d{11}` at one position: the next eleven characters
are digits. -/
def elevenAt (s : List Char) : Option (List Char) :=
  let ds := s.take 11
  if ds.length = 11 && ds.all isDig then some ds else none

/-- Scan past the label suffix `\s*[:#]?\s*` after a leading `RUC`. -/
def rucAfterLabel (s : List Char) : List Char :=
  match (s.drop 3).dropWhile isSpc with
  | ':' :: t => t.dropWhile isSpc
  | '#' :: t => t.dropWhile isSpc
  | r1 => r1

/-- Position matcher for `(RUC\s*[:#]?\s*)?(\d{11})`: the optional
label group is tried first (greedy), then the bare digit group at the
same position. -/
def rucAt (s : List Char) : Option (List Char) :=
  if ['R', 'U', 'C'].isPrefixOf s then
    match elevenAt (rucAfterLabel s) with
    | some ds => some ds
    | none => elevenAt s
  else elevenAt s

/-- One line of `detect_ruc`: leftmost match over the uppercased line,
returning the eleven-digit group. -/
def rucLine (ln : String) : Option String := (searchIt rucAt (upStr ln.data)).map String.mk

/-- `detect_ruc` from `extract_expense.py`. -/
def detect_ruc : List String → String
  | [] => ""
  | ln :: rest =>
    match rucLine ln with
    | some d => d
    | none => detect_ruc rest

/-- Position matcher for `([FB][0-9]{3}-[0-9]{5,8})`. -/
def numTier1At : List Char → Option (List Char)
  | c :: d1 :: d2 :: d3 :: '-' :: rest =>
    if (c = 'F' || c = 'B') && isDig d1 && isDig d2 && isDig d3 then
      let run := rest.takeWhile isDig
      if 5 ≤ run.length then some (c :: d1 :: d2 :: d3 :: '-' :: run.take 8) else none
    else none
  | _ => none

/-- Position matcher for `([A-Z][0-9]{3}-[0-9]{5,10})`. -/
def numTier2At : List Char → Option (List Char)
  | c :: d1 :: d2 :: d3 :: '-' :: rest =>
    if (65 ≤ c.toNat && c.toNat ≤ 90) && isDig d1 && isDig d2 && isDig d3 then
      let run := rest.takeWhile isDig
      if 5 ≤ run.length then some (c :: d1 :: d2 :: d3 :: '-' :: run.take 10) else none
    else none
  | _ => none

/-- Position matcher for `([0-9]{3}-[0-9]{5,8})`. -/
def numTier3At : List Char → Option (List Char)
  | d1 :: d2 :: d3 :: '-' :: rest =>
    if isDig d1 && isDig d2 && isDig d3 then
      let run := rest.takeWhile isDig
      if 5 ≤ run.length then some (d1 :: d2 :: d3 :: '-' :: run.take 8) else none
    else none
  | _ => none

/-- First loop body of `detect_numero`: tier 1 searched over the whole
uppercased line, then tier 2. -/
def numeroLine12 (ln : String) : Option String :=
  match searchIt numTier1At (upStr ln.data) with
  | some r => some (String.mk r)
  | none => (searchIt numTier2At (upStr ln.data)).map String.mk

/-- Second loop body of `detect_numero`: tier 3 on the raw line. -/
def numeroLine3 (ln : String) : Option String := (searchIt numTier3At ln.data).map String.mk

def numeroPass1 : List String → Option String
  | [] => none
  | ln :: rest =>
    match numeroLine12 ln with
    | some r => some r
    | none => numeroPass1 rest

def numeroPass3 : List String → Option String
  | [] => none
  | ln :: rest =>
    match numeroLine3 ln with
    | some r => some r
    | none => numeroPass3 rest

/-- `detect_numero` from `extract_expense.py`: one pass trying tiers 1
and 2 on each line, then a fallback pass trying tier 3. -/
def detect_numero (lines : List String) : String :=
  match numeroPass1 lines with
  | some r => r
  | none =>
    match numeroPass3 lines with
    | some r => r
    | none => ""

/-- Company-suffix markers of `detect_proveedor` (`re.search` with an
alternation is truthy exactly when some alternative occurs). -/
def sfxOk (u : List Char) : Bool :=
  containsSeq "SAC".data u || containsSeq "SA".data u || containsSeq "SRL".data u
    || containsSeq "EIRL".data u || containsSeq "S.A.".data u || containsSeq "S.A.C".data u

/-- First heuristic of `detect_proveedor` over the first eight lines. -/
def provFirst : List String → Option String
  | [] => none
  | ln :: rest =>
    let t := stripWS ln.data
    if t.length < 3 then provFirst rest
    else if sfxOk (upStr t) then some (String.mk t)
    else provFirst rest

/-- Second heuristic of `detect_proveedor`: the line before a line
containing `RUC`, when long enough; the accumulator is the previous
line (`none` at index zero). -/
def provNearRuc : Option String → List String → String
  | _, [] => ""
  | prev, ln :: rest =>
    if containsSeq "RUC".data (upStr ln.data) then
      match prev with
      | some p =>
        let pv := stripWS p.data
        if 3 < pv.length then String.mk pv else provNearRuc (some ln) rest
      | none => provNearRuc (some ln) rest
    else provNearRuc (some ln) rest

/-- `detect_proveedor` from `extract_expense.py`. -/
def detect_proveedor (lines : List String) : String :=
  match provFirst (lines.take 8) with
  | some r => r
  | none => provNearRuc none lines

/-- Is some keyword of the vocabulary a substring of the buffer? -/
def anyKey (ks : List String) (joined : List Char) : Bool :=
  ks.any (fun k => containsSeq k.data joined)

/-- `detect_categoria` from `extract_expense.py`. -/
def detect_categoria (lines : List String) : String :=
  let joined := lowStr (joinStr [' '] lines)
  if anyKey ["rest", "pollo", "pizza", "sandwich", "bembos", "kfc", "comida", "market",
      "super"] joined then "alimentación"
  else if anyKey ["uber", "taxi", "bus", "peaje", "gasolina", "shell", "grif"] joined then
    "transporte"
  else if anyKey ["luz", "agua", "internet", "claro", "movistar", "servicio"] joined then
    "servicios"
  else if anyKey ["cine", "netflix", "spotify", "pub", "bar"] joined then "entretenimiento"
  else if anyKey ["colegio", "universidad", "curso", "libro"] joined then "educación"
  else if anyKey ["farmacia", "clinica", "salud", "medic"] joined then "salud"
  else if anyKey ["alquiler", "inmobiliaria", "hogar", "vivienda"] joined then "vivienda"
  else if anyKey ["laptop", "pc", "celular", "iphone", "samsung", "tecnolog"] joined then
    "tecnología"
  else ""

/-- JSON values appearing in the emitted records. -/
inductive JVal where
  | jstr : String → JVal
  | jarr : List String → JVal

/-- Key order of the heuristic pipeline's output object. -/
def expenseKeys : List String :=
  ["tipo_documento", "proveedor", "ruc_proveedor", "fecha_emision", "monto_total",
   "moneda", "categoria_gasto", "numero_documento", "items", "observaciones", "text"]

/-- Record construction of `main` in `extract_expense.py` over the
normalized lines, with the raw text joined by `" \n "`. -/
def assembleRecord (lines : List String) : List (String × JVal) :=
  [("tipo_documento", JVal.jstr (detect_tipo lines)),
   ("proveedor", JVal.jstr (detect_proveedor lines)),
   ("ruc_proveedor", JVal.jstr (detect_ruc lines)),
   ("fecha_emision", JVal.jstr (detect_fecha lines)),
   ("monto_total", JVal.jstr (detect_total lines)),
   ("moneda", JVal.jstr (detect_moneda lines)),
   ("categoria_gasto", JVal.jstr (detect_categoria lines)),
   ("numero_documento", JVal.jstr (detect_numero lines)),
   ("items", JVal.jarr []),
   ("observaciones", JVal.jstr ""),
   ("text", JVal.jstr (String.mk (joinStr [' ', '\n', ' '] lines)))]

/-- The zero-argument default object of `extract_expense.main`. -/
def heurEmptyRecord : List (String × JVal) :=
  [("tipo_documento", JVal.jstr ""), ("proveedor", JVal.jstr ""),
   ("ruc_proveedor", JVal.jstr ""), ("fecha_emision", JVal.jstr ""),
   ("monto_total", JVal.jstr ""), ("moneda", JVal.jstr ""),
   ("categoria_gasto", JVal.jstr ""), ("numero_documento", JVal.jstr ""),
   ("items", JVal.jarr []), ("observaciones", JVal.jstr ""), ("text", JVal.jstr "")]

/-- The zero-argument default object of `llm_extract.main` (no `text` key). -/
def llmEmptyRecord : List (String × JVal) :=
  [("tipo_documento", JVal.jstr ""), ("proveedor", JVal.jstr ""),
   ("ruc_proveedor", JVal.jstr ""), ("fecha_emision", JVal.jstr ""),
   ("monto_total", JVal.jstr ""), ("moneda", JVal.jstr ""),
   ("categoria_gasto", JVal.jstr ""), ("numero_documento", JVal.jstr ""),
   ("items", JVal.jarr []), ("observaciones", JVal.jstr "")]

/-- The error object printed by the `except` branch of `llm_extract.main`. -/
def llmErrorRecord (e : String) : List (String × JVal) :=
  llmEmptyRecord ++ [("error", JVal.jstr e)]

/-- Observable outcome of one process invocation: a printed JSON object
with an exit code, a verbatim passthrough of the model text, or an
uncaught exception (Python terminates with exit code 1). -/
inductive ProcResult where
  | out : List (String × JVal) → Nat → ProcResult
  | rawOut : String → Nat → ProcResult
  | raised : Nat → ProcResult

/-- `main` of `extract_expense.py`.  The OCR adapter catches every
exception and degrades to a line list, so its outcome is a plain
parameter. -/
def heurMain (argv : List String) (ocrLines : List String) : ProcResult :=
  match argv with
  | _ :: _ :: _ => ProcResult.out (assembleRecord (clean_text ocrLines)) 0
  | _ => ProcResult.out heurEmptyRecord 0

/-- `main` of `llm_extract.py` after a successful `openai` import.  The
fallible collaborators are explicit: `openImg` is the unguarded
`open(img_path, 'rb')`, `mkClient` the unguarded `OpenAI(...)`
constructor, and `llmCall` the guarded chat-completion call whose
failure is caught and encoded as an `error` field. -/
def llmMain (argv : List String) (openImg : Except String Unit)
    (mkClient : Except String Unit) (llmCall : Except String String) : ProcResult :=
  match argv with
  | _ :: _ :: _ =>
    match openImg with
    | Except.error _ => ProcResult.raised 1
    | Except.ok _ =>
      match mkClient with
      | Except.error _ => ProcResult.raised 1
      | Except.ok _ =>
        match llmCall with
        | Except.error e => ProcResult.out (llmErrorRecord ("llm error: " ++ e)) 0
        | Except.ok text => ProcResult.rawOut text 0
  | _ => ProcResult.out llmEmptyRecord 0

/-- Does the list avoid starting with whitespace? -/
def headOk : List Char → Bool
  | [] => true
  | c :: _ => !isSpc c

/-- Does the list avoid ending with whitespace? -/
def lastOk : List Char → Bool
  | [] => true
  | [c] => !isSpc c
  | _ :: c :: cs => lastOk (c :: cs)

/-- Every whitespace character is a single blank followed by a
non-whitespace character (so in particular not the last character). -/
def spacedOk : List Char → Bool
  | [] => true
  | [c] => !isSpc c
  | c :: d :: rest => (!isSpc c || (c = ' ' && !isSpc d)) && spacedOk (d :: rest)

theorem lastOk_of_spacedOk : ∀ l, spacedOk l = true → lastOk l = true := by
  intro l h
  induction l with
  | nil => rfl
  | cons c cs ih =>
    cases cs with
    | nil => exact h
    | cons d t =>
      simp only [spacedOk, Bool.and_eq_true] at h
      simpa [lastOk] using ih h.2

theorem headOk_dropWhile (l : List Char) : headOk (l.dropWhile isSpc) = true := by
  induction l with
  | nil => rfl
  | cons c cs ih =>
    by_cases hc : isSpc c = true
    · simpa [List.dropWhile, hc] using ih
    · simp [List.dropWhile, hc, headOk]

theorem dropWhile_of_headOk (l : List Char) (h : headOk l = true) :
    l.dropWhile isSpc = l := by
  cases l with
  | nil => rfl
  | cons c cs =>
    simp only [headOk, Bool.not_eq_true'] at h
    simp [List.dropWhile, h]

theorem lastOk_append_singleton : ∀ (Y : List Char) (c : Char),
    lastOk (Y ++ [c]) = !isSpc c := by
  intro Y c
  induction Y with
  | nil => rfl
  | cons d Y ih =>
    cases Y with
    | nil => rfl
    | cons e Y2 => simpa [lastOk] using ih

theorem lastOk_reverse (l : List Char) : lastOk l.reverse = headOk l := by
  cases l with
  | nil => rfl
  | cons c cs => simp [List.reverse_cons, lastOk_append_singleton, headOk]

theorem headOk_reverse (l : List Char) : headOk l.reverse = lastOk l := by
  have h := lastOk_reverse l.reverse
  rw [List.reverse_reverse] at h
  exact h.symm

theorem lastOk_dropWhile : ∀ l, lastOk l = true → lastOk (l.dropWhile isSpc) = true := by
  intro l h
  induction l with
  | nil => rfl
  | cons c cs ih =>
    by_cases hc : isSpc c = true
    · cases cs with
      | nil => simp [lastOk, hc] at h
      | cons d t =>
        rw [List.dropWhile_cons_of_pos hc]
        exact ih h
    · rw [List.dropWhile_cons_of_neg hc]
      exact h

theorem lastOk_stripWS (l : List Char) : lastOk (stripWS l) = true := by
  unfold stripWS dropTrail
  rw [lastOk_reverse]
  exact headOk_dropWhile _

theorem headOk_stripWS (l : List Char) : headOk (stripWS l) = true := by
  unfold stripWS dropTrail
  rw [headOk_reverse]
  exact lastOk_dropWhile _ (by rw [lastOk_reverse]; exact headOk_dropWhile l)

theorem stripWS_fix (l : List Char) (h1 : headOk l = true) (h2 : lastOk l = true) :
    stripWS l = l := by
  unfold stripWS dropTrail
  rw [dropWhile_of_headOk l h1, dropWhile_of_headOk _ (by rw [headOk_reverse]; exact h2),
    List.reverse_reverse]

theorem spacedOk_cons (c : Char) (X : List Char) (hc : isSpc c = false)
    (hX : spacedOk X = true) : spacedOk (c :: X) = true := by
  cases X with
  | nil => simp [spacedOk, hc]
  | cons e t => simp [spacedOk, hc, hX]

theorem collapseAux_fix : ∀ l, spacedOk l = true → collapseAux false l = l := by
  intro l h
  induction l with
  | nil => rfl
  | cons c cs ih =>
    by_cases hc : isSpc c = true
    · cases cs with
      | nil => simp [spacedOk, hc] at h
      | cons d t =>
        simp only [spacedOk, Bool.and_eq_true, Bool.or_eq_true, Bool.not_eq_true',
          Bool.and_eq_true, decide_eq_true_eq] at h
        obtain ⟨hcd, hrest⟩ := h
        have hcblank : c = ' ' ∧ isSpc d = false := by
          rcases hcd with h1 | h2
          · rw [h1] at hc; cases hc
          · exact ⟨by simpa using h2.1, h2.2⟩
        have htail := ih hrest
        rw [collapseAux, if_pos hc, if_neg (by simp)]
        rw [collapseAux, if_neg (by rw [hcblank.2]; simp)] at htail ⊢
        have ht : collapseAux false t = t := by
          have := htail
          simp only [List.cons.injEq] at this
          exact this.2
        rw [ht, hcblank.1]
    · have hcs : spacedOk cs = true := by
        cases cs with
        | nil => rfl
        | cons d t =>
          simp only [spacedOk, Bool.and_eq_true] at h
          exact h.2
      rw [collapseAux, if_neg (by simp [hc])]
      cases cs with
      | nil => rfl
      | cons d t => rw [ih hcs]

theorem collapseAux_good : ∀ l, lastOk l = true →
    (spacedOk (collapseAux false l) = true ∧
      (l ≠ [] → ∃ d t, collapseAux true l = d :: t ∧ isSpc d = false ∧
        spacedOk (d :: t) = true)) := by
  intro l h
  induction l with
  | nil => exact ⟨rfl, by intro hne; cases hne rfl⟩
  | cons c cs ih =>
    by_cases hc : isSpc c = true
    · have hcs : cs ≠ [] := by
        intro he
        subst he
        simp [lastOk, hc] at h
      have hlast : lastOk cs = true := by
        cases cs with
        | nil => cases hcs rfl
        | cons d t => exact h
      obtain ⟨d, t, hdt, hd, hsp⟩ := (ih hlast).2 hcs
      constructor
      · rw [collapseAux, if_pos hc, if_neg (by simp), hdt]
        simp [spacedOk, hd, hsp]
      · intro _
        rw [collapseAux, if_pos hc, if_pos rfl]
        exact ⟨d, t, hdt, hd, hsp⟩
    · have hcs : spacedOk (collapseAux false cs) = true := by
        cases cs with
        | nil => rfl
        | cons d t =>
          have : lastOk (d :: t) = true := h
          exact (ih this).1
      have hgoal : spacedOk (c :: collapseAux false cs) = true :=
        spacedOk_cons c _ (by simpa using hc) hcs
      constructor
      · rw [collapseAux, if_neg (by simp [hc])]
        exact hgoal
      · intro _
        rw [collapseAux, if_neg (by simp [hc])]
        exact ⟨c, collapseAux false cs, rfl, by simpa using hc, hgoal⟩

theorem headOk_collapseAux (l : List Char) (h : headOk l = true) :
    headOk (collapseAux false l) = true := by
  cases l with
  | nil => rfl
  | cons c cs =>
    simp only [headOk, Bool.not_eq_true'] at h
    rw [collapseAux, if_neg (by simp [h])]
    simp [headOk, h]

theorem collapseAux_ne_nil (l : List Char) (h : l ≠ []) :
    collapseAux false l ≠ [] := by
  cases l with
  | nil => cases h rfl
  | cons c cs =>
    by_cases hc : isSpc c = true
    · rw [collapseAux, if_pos hc, if_neg (by simp)]
      simp
    · rw [collapseAux, if_neg (by simp [hc])]
      simp

theorem cleanLine_fix (s u : String) (h : cleanLine s = some u) :
    cleanLine u = some u := by
  unfold cleanLine at h
  by_cases ht : (stripWS s.data).isEmpty = true
  · simp [ht] at h
  · simp only [ht, Bool.false_eq_true, if_false, Option.some.injEq] at h
    have htne : stripWS s.data ≠ [] := by
      intro he
      rw [he] at ht
      exact ht rfl
    set t := stripWS s.data with hts
    have hhead : headOk t = true := headOk_stripWS _
    have hlast : lastOk t = true := lastOk_stripWS _
    have hspaced : spacedOk (collapseAux false t) = true := (collapseAux_good t hlast).1
    have houthead : headOk (collapseAux false t) = true := headOk_collapseAux t hhead
    have houtlast : lastOk (collapseAux false t) = true := lastOk_of_spacedOk _ hspaced
    have houtne : collapseAux false t ≠ [] := collapseAux_ne_nil t htne
    have hdata : u.data = collapseAux false t := by rw [← h]
    unfold cleanLine
    rw [hdata, stripWS_fix _ houthead houtlast]
    rw [if_neg (by simpa [List.isEmpty_iff] using houtne)]
    rw [collapseAux_fix _ hspaced, ← hdata]

theorem clean_text_mem (L : List String) (s : String) (hs : s ∈ clean_text L) :
    cleanLine s = some s := by
  unfold clean_text at hs
  rw [List.mem_filterMap] at hs
  obtain ⟨a, _, ha⟩ := hs
  exact cleanLine_fix a s ha

theorem clean_text_of_fixed : ∀ (M : List String), (∀ s ∈ M, cleanLine s = some s) →
    clean_text M = M := by
  intro M h
  induction M with
  | nil => rfl
  | cons a M ih =>
    have ha : cleanLine a = some a := h a (by simp)
    have hM : clean_text M = M := ih (fun s hs => h s (by simp [hs]))
    unfold clean_text at hM ⊢
    simp [List.filterMap_cons, ha, hM]

/-- C8: the line normalizer is idempotent — normalizing its own output
changes nothing. -/
theorem clean_text_idempotent (L : List String) :
    clean_text (clean_text L) = clean_text L :=
  clean_text_of_fixed (clean_text L) (fun s hs => clean_text_mem L s hs)

/-- C1: for every input line list the heuristic record assembler emits
exactly the fixed key set in order, and on the empty line list every
string field is the empty string and `items` is the empty sequence. -/
theorem assembleRecord_keys_and_empty :
    (∀ lines, (assembleRecord lines).map Prod.fst = expenseKeys) ∧
      assembleRecord [] = heurEmptyRecord :=
  ⟨fun _ => rfl, rfl⟩

/-- C2 as stated is false: the amount normalizer maps `"S/ 1,234.56"`
to `"4.56"`, not `"34.56"` (the runs of `\d+\.?\d{0,2}` are extracted
left to right without overlap, so after `"1.23"` the scan resumes at
`"4.56"`). -/
theorem normalize_amount_thousands_cx :
    normalize_amount "S/ 1,234.56" ≠ "34.56" := by decide

/-- C2 amended: on `"S/ 1,234.56"` the cleaned string is `"1.234.56"`,
the extracted runs are `"1.23"` and `"4.56"`, and the last run
`"4.56"` formats to the result `"4.56"`. -/
theorem normalize_amount_thousands :
    normalize_amount "S/ 1,234.56" = "4.56" ∧
      cleanedAmount "S/ 1,234.56" = "1.234.56".data ∧
      amountRuns "1.234.56".data = ["1.23".data, "4.56".data] := by
  refine ⟨by decide, by decide, by decide⟩

/-- C3 as stated is false: invoked on an image path whose `open` fails,
the model pipeline raises an uncaught exception and exits with code 1
instead of printing a fully keyed JSON record and exiting 0. -/
theorem llm_open_failure_cx :
    llmMain ["llm_extract.py", "missing.png"] (Except.error "FileNotFoundError")
        (Except.ok ()) (Except.ok "{}") = ProcResult.raised 1 ∧
      ProcResult.raised 1 ≠ ProcResult.out llmEmptyRecord 0 :=
  ⟨rfl, fun h => nomatch h⟩

/-- C3 amended: the heuristic pipeline always prints a fully keyed
record and exits 0; the model pipeline does so with zero arguments and
when the image open and client construction succeed (an LLM failure is
encoded in the JSON), but a failing open or client constructor raises
and exits nonzero. -/
theorem cli_exit_behaviour :
    (∀ argv ocr, ∃ rec, heurMain argv ocr = ProcResult.out rec 0 ∧
        rec.map Prod.fst = expenseKeys) ∧
      (∀ f c l, llmMain ["llm_extract.py"] f c l = ProcResult.out llmEmptyRecord 0) ∧
      (∀ a b rest e c l,
        llmMain (a :: b :: rest) (Except.error e) c l = ProcResult.raised 1) ∧
      (∀ a b rest e l,
        llmMain (a :: b :: rest) (Except.ok ()) (Except.error e) l = ProcResult.raised 1) ∧
      (∀ a b rest e, llmMain (a :: b :: rest) (Except.ok ()) (Except.ok ())
          (Except.error e) = ProcResult.out (llmErrorRecord ("llm error: " ++ e)) 0) ∧
      (∀ a b rest t, llmMain (a :: b :: rest) (Except.ok ()) (Except.ok ())
          (Except.ok t) = ProcResult.rawOut t 0) := by
  refine ⟨?_, fun f c l => rfl, fun a b rest e c l => rfl, fun a b rest e l => rfl,
    fun a b rest e => rfl, fun a b rest t => rfl⟩
  intro argv ocr
  match argv with
  | [] => exact ⟨heurEmptyRecord, rfl, rfl⟩
  | [a] => exact ⟨heurEmptyRecord, rfl, rfl⟩
  | a :: b :: rest => exact ⟨assembleRecord (clean_text ocr), rfl, rfl⟩

/-- C6: the date detector returns the first per-line match (pattern A
tried before pattern B on each line, lines scanned in order), reordered
to ISO shape, with no calendar check beyond the digit ranges, and the
empty string when no line matches. -/
theorem detect_fecha_spec :
    detect_fecha ["Fecha: 2024-03-15 gracias"] = "2024-03-15" ∧
      detect_fecha ["15/03/2024"] = "2024-03-15" ∧
      detect_fecha ["hola mundo", "sin fecha"] = "" ∧
      detect_fecha ["2024-02-31"] = "2024-02-31" ∧
      (∀ pre ln post d, dateLine ln = some d → (∀ l ∈ pre, dateLine l = none) →
        detect_fecha (pre ++ ln :: post) = d) := by
  refine ⟨by decide, by decide, by decide, by decide, ?_⟩
  intro pre ln post d hln hpre
  induction pre with
  | nil => simp [detect_fecha, hln]
  | cons a pre ih =>
    have ha : dateLine a = none := hpre a (by simp)
    have hrec : detect_fecha (pre ++ ln :: post) = d :=
      ih (fun l hl => hpre l (by simp [hl]))
    simpa [detect_fecha, ha] using hrec

theorem detect_fecha_spec_witness :
    detect_fecha ["sin fecha aqui", "Emitida 15/03/2024", "gracias"] = "2024-03-15" :=
  detect_fecha_spec.2.2.2.2 ["sin fecha aqui"] "Emitida 15/03/2024" ["gracias"]
    "2024-03-15" (by decide)
    (by intro l hl; rw [List.mem_singleton] at hl; subst hl; decide)

/-- C7: the tax-id detector returns the eleven-digit group of the first
matching line (the `RUC` label with optional colon or hash and blanks
is optional, so a bare run of eleven digits matches too), and the empty
string when no line matches. -/
theorem detect_ruc_spec :
    detect_ruc ["RUC: 20123456789"] = "20123456789" ∧
      detect_ruc ["pago 20123456789 gracias"] = "20123456789" ∧
      detect_ruc ["sin numero"] = "" ∧
      (∀ pre ln post d, rucLine ln = some d → (∀ l ∈ pre, rucLine l = none) →
        detect_ruc (pre ++ ln :: post) = d) ∧
      (∀ lines, (∀ l ∈ lines, rucLine l = none) → detect_ruc lines = "") := by
  refine ⟨by decide, by decide, by decide, ?_, ?_⟩
  · intro pre ln post d hln hpre
    induction pre with
    | nil => simp [detect_ruc, hln]
    | cons a pre ih =>
      have ha : rucLine a = none := hpre a (by simp)
      have hrec : detect_ruc (pre ++ ln :: post) = d :=
        ih (fun l hl => hpre l (by simp [hl]))
      simpa [detect_ruc, ha] using hrec
  · intro lines h
    induction lines with
    | nil => rfl
    | cons a rest ih =>
      have ha : rucLine a = none := h a (by simp)
      have hrec := ih (fun l hl => h l (by simp [hl]))
      simpa [detect_ruc, ha] using hrec

theorem detect_ruc_spec_witness :
    detect_ruc ["cliente final", "RUC # 20601234567", "gracias"] = "20601234567" :=
  detect_ruc_spec.2.2.2.1 ["cliente final"] "RUC # 20601234567" ["gracias"]
    "20601234567" (by decide)
    (by intro l hl; rw [List.mem_singleton] at hl; subst hl; decide)

/-- C5 as stated is false: with an earlier line matching only tier 2
and a later line matching tier 1, the detector returns the earlier
line's tier-2 match, because tiers 1 and 2 are both tried on each line
in a single pass. -/
theorem detect_numero_tier_order_cx :
    detect_numero ["X123-00055", "F001-00012345"] = "X123-00055" ∧
      ("X123-00055" : String) ≠ "F001-00012345" :=
  ⟨by decide, by decide⟩

/-- C5 amended: the detector scans the lines once trying tier 1 then
tier 2 on each line (so an earlier tier-2 match beats a later tier-1
match), then scans all lines again with tier 3; matching is on the
uppercased line for tiers 1 and 2; the result is empty when no tier
matches. -/
theorem detect_numero_passes :
    detect_numero ["F001-00001234"] = "F001-00001234" ∧
      detect_numero ["X123-0000055"] = "X123-0000055" ∧
      detect_numero ["123-00055"] = "123-00055" ∧
      detect_numero ["X123-00055", "F001-00012345"] = "X123-00055" ∧
      (∀ pre ln post r, numeroLine12 ln = some r → (∀ l ∈ pre, numeroLine12 l = none) →
        detect_numero (pre ++ ln :: post) = r) ∧
      (∀ lines, (∀ l ∈ lines, numeroLine12 l = none) →
        detect_numero lines = (numeroPass3 lines).getD "") := by
  refine ⟨by decide, by decide, by decide, by decide, ?_, ?_⟩
  · intro pre ln post r hln hpre
    have hpass : numeroPass1 (pre ++ ln :: post) = some r := by
      induction pre with
      | nil => simp [numeroPass1, hln]
      | cons a pre ih =>
        have ha : numeroLine12 a = none := hpre a (by simp)
        have hrec := ih (fun l hl => hpre l (by simp [hl]))
        simpa [numeroPass1, ha] using hrec
    simp [detect_numero, hpass]
  · intro lines h
    have hpass : numeroPass1 lines = none := by
      induction lines with
      | nil => rfl
      | cons a rest ih =>
        have ha : numeroLine12 a = none := h a (by simp)
        have hrec := ih (fun l hl => h l (by simp [hl]))
        simpa [numeroPass1, ha] using hrec
    unfold detect_numero
    rw [hpass]
    cases h3 : numeroPass3 lines <;> simp [h3, Option.getD]

theorem detect_numero_passes_witness :
    detect_numero ["boleta electronica", "B205-0012345", "gracias"] = "B205-0012345" :=
  detect_numero_passes.2.2.2.2.1 ["boleta electronica"] "B205-0012345" ["gracias"]
    "B205-0012345" (by decide)
    (by intro l hl; rw [List.mem_singleton] at hl; subst hl; decide)

/-- The candidate kept by the `detect_total` loop, described
declaratively: the normalized last monetary token of the last line
whose uppercased form contains `TOTAL` and which carries a token. -/
def lastTotalCand : List String → Option String
  | [] => none
  | ln :: rest =>
    match lastTotalCand rest with
    | some c => some c
    | none =>
      if hasTotalTok ln then
        match (moneyRuns ln).getLast? with
        | some t => some (normalize_amount (String.mk t))
        | none => none
      else none

/-- Maximum value in cents over all monetary tokens of all lines. -/
def maxRun (lines : List String) : Nat :=
  ((lines.map moneyRuns).flatten.map tokCents).foldr max 0

/-- Resolution policy of the total detector read off the specification:
prefer a non-empty `TOTAL`-labelled candidate, else the maximum token
when positive, else the empty string. -/
def totalSpec (lines : List String) : String :=
  match lastTotalCand lines with
  | some c =>
    if c ≠ "" then c
    else if 0 < maxRun lines then formatCents (maxRun lines) else ""
  | none => if 0 < maxRun lines then formatCents (maxRun lines) else ""

theorem if_gt_eq_max (x y : Nat) : (if y > x then y else x) = max x y := by
  rcases Nat.lt_or_ge x y with h | h
  · rw [if_pos h, Nat.max_eq_right (Nat.le_of_lt h)]
  · rw [if_neg (Nat.not_lt.mpr h), Nat.max_eq_left h]

theorem foldl_tok_max : ∀ (toks : List (List Char)) (a : Nat),
    toks.foldl (fun x t => if tokCents t > x then tokCents t else x) a =
      max a ((toks.map tokCents).foldr max 0) := by
  intro toks
  induction toks with
  | nil => intro a; simp
  | cons t ts ih =>
    intro a
    rw [List.foldl_cons, ih, if_gt_eq_max]
    simp [Nat.max_assoc]

theorem foldr_max_append (A B : List Nat) :
    (A ++ B).foldr max 0 = max (A.foldr max 0) (B.foldr max 0) := by
  induction A with
  | nil => simp
  | cons a A ih => simp [ih, Nat.max_assoc]

theorem totalLoop_fst : ∀ (lines : List String) (mx : Nat) (tot : String),
    (lines.foldl totalStep (mx, tot)).1 = max mx (maxRun lines) := by
  intro lines
  induction lines with
  | nil => intro mx tot; simp [maxRun]
  | cons ln rest ih =>
    intro mx tot
    rw [List.foldl_cons, ih]
    show max (totalStep (mx, tot) ln).1 _ = _
    have hstep : (totalStep (mx, tot) ln).1 =
        max mx (((moneyRuns ln).map tokCents).foldr max 0) := foldl_tok_max _ _
    rw [hstep]
    have hmr : maxRun (ln :: rest) =
        max (((moneyRuns ln).map tokCents).foldr max 0) (maxRun rest) := by
      unfold maxRun
      rw [List.map_cons, List.flatten_cons, List.map_append, foldr_max_append]
    rw [hmr, Nat.max_assoc]

theorem totalLoop_snd : ∀ (lines : List String) (mx : Nat) (tot : String),
    (lines.foldl totalStep (mx, tot)).2 = (lastTotalCand lines).getD tot := by
  intro lines
  induction lines with
  | nil => intro mx tot; rfl
  | cons ln rest ih =>
    intro mx tot
    rw [List.foldl_cons, ih]
    show (lastTotalCand rest).getD (totalStep (mx, tot) ln).2 = _
    cases hrest : lastTotalCand rest with
    | some c => simp [lastTotalCand, hrest]
    | none =>
      have hstep : (totalStep (mx, tot) ln).2 =
          (if hasTotalTok ln then
            match (moneyRuns ln).getLast? with
            | some t => normalize_amount (String.mk t)
            | none => tot
          else tot) := rfl
      rw [Option.getD_none, hstep]
      unfold lastTotalCand
      rw [hrest]
      by_cases hl : hasTotalTok ln = true
      · cases hget : (moneyRuns ln).getLast? with
        | some t => simp [hl, hget]
        | none => simp [hl, hget]
      · simp [hl]

theorem mem_of_getLast?_eq {α : Type} {l : List α} {a : α} (h : l.getLast? = some a) :
    a ∈ l := by
  have hmem : a ∈ l.getLast? := h
  obtain ⟨hne, heq⟩ := List.mem_getLast?_eq_getLast hmem
  rw [heq]
  exact List.getLast_mem hne

theorem amountToks_nil (n : Nat) : amountToks n [] = [] := by cases n <;> rfl

theorem moneyToks_nil (n : Nat) : moneyToks n [] = [] := by cases n <;> rfl

/-- Every token of the money-token scanner is a nonempty digit run, a
dot or comma, and exactly two digits. -/
theorem moneyToks_shape : ∀ (n : Nat) (s tok : List Char), tok ∈ moneyToks n s →
    ∃ ds k a b, tok = ds ++ k :: a :: b :: [] ∧ ds ≠ [] ∧ ds.all isDig = true ∧
      (k = '.' ∨ k = ',') ∧ isDig a = true ∧ isDig b = true := by
  intro n
  induction n with
  | zero => intro s tok h; simp [moneyToks] at h
  | succ n ih =>
    intro s tok h
    cases s with
    | nil => simp [moneyToks] at h
    | cons c cs =>
      by_cases hc : isDig c = true
      · rw [moneyToks, if_pos hc] at h
        cases hdrop : (c :: cs).dropWhile isDig with
        | nil => rw [hdrop] at h; simp at h
        | cons k r2 =>
          rw [hdrop] at h
          dsimp only at h
          by_cases hk : (k = '.' || k = ',') = true
          · rw [if_pos hk] at h
            cases r2 with
            | nil => exact ih _ tok h
            | cons a r2' =>
              cases r2' with
              | nil => exact ih _ tok h
              | cons b r3 =>
                dsimp only at h
                by_cases hab : (isDig a && isDig b) = true
                · rw [if_pos hab] at h
                  rcases List.mem_cons.mp h with heq | hmem
                  · refine ⟨(c :: cs).takeWhile isDig, k, a, b, heq, ?_, ?_, ?_, ?_, ?_⟩
                    · rw [List.takeWhile_cons_of_pos hc]; simp
                    · exact List.all_takeWhile
                    · simpa using hk
                    · simp only [Bool.and_eq_true] at hab; exact hab.1
                    · simp only [Bool.and_eq_true] at hab; exact hab.2
                  · exact ih _ tok hmem
                · rw [if_neg hab] at h
                  exact ih _ tok h
          · rw [if_neg hk] at h
            exact ih _ tok h
      · rw [moneyToks, if_neg hc] at h
        exact ih _ tok h

theorem isDig_char_facts {x : Char} (h : isDig x = true) :
    x ≠ ' ' ∧ x ≠ 'S' ∧ x ≠ 'U' ∧ x ≠ '$' ∧ x ≠ ',' := by
  simp only [isDig, Bool.and_eq_true, decide_eq_true_eq] at h
  refine ⟨?_, ?_, ?_, ?_, ?_⟩ <;>
    · intro he
      subst he
      revert h
      decide

theorem replAll_not_mem (p : Char) (ps rep : List Char) :
    ∀ (s : List Char) (n : Nat), p ∉ s → replAll (p :: ps) rep n s = s := by
  intro s
  induction s with
  | nil => intro n _; cases n <;> rfl
  | cons c cs ih =>
    intro n h
    cases n with
    | zero => rfl
    | succ m =>
      have hpc : (p == c) = false := by
        simp only [beq_eq_false_iff_ne]
        intro he
        exact h (by rw [he]; exact List.mem_cons_self c cs)
      have hp : (p :: ps).isPrefixOf (c :: cs) = false := by
        simp [List.isPrefixOf, hpc]
      rw [replAll, if_neg (by simp [hp])]
      rw [ih m (fun hm => h (List.mem_cons_of_mem c hm))]

theorem replAll_single (c d : Char) :
    ∀ (s : List Char) (n : Nat), s.length ≤ n →
      replAll [c] [d] n s = s.map (fun x => if x = c then d else x) := by
  intro s
  induction s with
  | nil => intro n _; cases n <;> rfl
  | cons x xs ih =>
    intro n h
    cases n with
    | zero => simp at h
    | succ m =>
      have hm : xs.length ≤ m := by simpa using h
      by_cases hxc : x = c
      · have hp : ([c]).isPrefixOf (x :: xs) = true := by simp [List.isPrefixOf, hxc]
        rw [replAll, if_pos (by simp [hp])]
        simp only [List.map_cons, if_pos hxc]
        rw [show ((x :: xs).drop ([c] : List Char).length) = xs from rfl]
        rw [ih m hm]
        rfl
      · have hp : ([c]).isPrefixOf (x :: xs) = false := by
          simp [List.isPrefixOf]
          exact fun he => hxc he.symm
        rw [replAll, if_neg (by simp [hp])]
        simp only [List.map_cons, if_neg hxc]
        rw [ih m hm]

/-- A monetary token survives the currency-marker removals of
`normalize_amount` unchanged and its comma becomes a dot. -/
theorem cleanedAmount_token {ds : List Char} {k a b : Char}
    (hds : ds.all isDig = true) (hk : k = '.' ∨ k = ',')
    (ha : isDig a = true) (hb : isDig b = true) :
    cleanedAmount (String.mk (ds ++ k :: a :: b :: [])) = ds ++ '.' :: a :: b :: [] := by
  set tok := ds ++ k :: a :: b :: [] with htok
  have hchars : ∀ x ∈ tok, isDig x = true ∨ x = k := by
    intro x hx
    rw [htok, List.mem_append] at hx
    rcases hx with hx | hx
    · exact Or.inl (List.all_eq_true.mp hds x hx)
    · simp only [List.mem_cons, List.not_mem_nil, or_false] at hx
      rcases hx with rfl | rfl | rfl
      · exact Or.inr rfl
      · exact Or.inl ha
      · exact Or.inl hb
  have hknot : k ≠ ' ' ∧ k ≠ 'S' ∧ k ≠ 'U' ∧ k ≠ '$' := by
    rcases hk with rfl | rfl <;> exact ⟨by decide, by decide, by decide, by decide⟩
  have hno : ∀ y : Char, (∀ x, isDig x = true → x ≠ y) → k ≠ y → y ∉ tok := by
    intro y hdigy hky hy
    rcases hchars y hy with hd | hyk
    · exact hdigy y hd rfl
    · exact hky hyk.symm
  have hsp : ' ' ∉ tok := hno ' ' (fun x hx => (isDig_char_facts hx).1) hknot.1
  have hS : 'S' ∉ tok := hno 'S' (fun x hx => (isDig_char_facts hx).2.1) hknot.2.1
  have hU : 'U' ∉ tok := hno 'U' (fun x hx => (isDig_char_facts hx).2.2.1) hknot.2.2.1
  have hD : '$' ∉ tok := hno '$' (fun x hx => (isDig_char_facts hx).2.2.2.1) hknot.2.2.2
  unfold cleanedAmount pyReplace
  rw [show (String.mk tok).data = tok from rfl]
  rw [replAll_not_mem ' ' [] [] tok _ hsp]
  rw [replAll_not_mem 'S' ['/'] [] tok _ hS]
  rw [replAll_not_mem 'U' ['S', '$'] [] tok _ hU]
  rw [replAll_not_mem '$' [] [] tok _ hD]
  rw [replAll_single ',' '.' tok _ (Nat.le_refl _)]
  rw [htok, List.map_append]
  have hds' : ds.map (fun x => if x = ',' then '.' else x) = ds := by
    have := List.map_congr_left (l := ds) (f := fun x => if x = ',' then '.' else x)
      (g := id) ?_
    · rw [this, List.map_id]
    · intro x hx
      have hxd := List.all_eq_true.mp hds x hx
      simp [(isDig_char_facts hxd).2.2.2.2]
  rw [hds']
  have hmap : (k :: a :: b :: []).map (fun x => if x = ',' then '.' else x) =
      '.' :: a :: b :: [] := by
    have hka : (if k = ',' then '.' else k) = '.' := by
      rcases hk with rfl | rfl <;> simp
    simp only [List.map_cons, List.map_nil, hka,
      if_neg (isDig_char_facts ha).2.2.2.2, if_neg (isDig_char_facts hb).2.2.2.2]
  rw [hmap]

/-- On a cleaned monetary token the run extractor returns exactly the
whole token. -/
theorem amountToks_shaped (n : Nat) (ds : List Char) (a b : Char) (hne : ds ≠ [])
    (hds : ds.all isDig = true) (ha : isDig a = true) (hb : isDig b = true) :
    amountToks (n + 1) (ds ++ '.' :: a :: b :: []) = [ds ++ '.' :: a :: b :: []] := by
  obtain ⟨c, ds', rfl⟩ : ∃ c ds', ds = c :: ds' := by
    cases ds with
    | nil => cases hne rfl
    | cons c t => exact ⟨c, t, rfl⟩
  have hc : isDig c = true := List.all_eq_true.mp hds c (by simp)
  have hmem : ∀ x ∈ c :: ds', isDig x = true := List.all_eq_true.mp hds
  have htake : ((c :: ds') ++ '.' :: a :: b :: []).takeWhile isDig = c :: ds' := by
    rw [List.takeWhile_append_of_pos hmem, List.takeWhile_cons_of_neg (by decide)]
    simp
  have hdrop : ((c :: ds') ++ '.' :: a :: b :: []).dropWhile isDig = '.' :: a :: b :: [] := by
    rw [List.dropWhile_append_of_pos hmem, List.dropWhile_cons_of_neg (by decide)]
  have hfr : ((a :: b :: []).takeWhile isDig).take 2 = a :: b :: [] := by
    rw [List.takeWhile_cons_of_pos ha, List.takeWhile_cons_of_pos hb]
    rfl
  rw [show (c :: ds') ++ '.' :: a :: b :: [] = c :: (ds' ++ '.' :: a :: b :: []) from rfl]
  rw [amountToks, if_pos hc]
  rw [show c :: (ds' ++ '.' :: a :: b :: []) = (c :: ds') ++ '.' :: a :: b :: [] from rfl]
  rw [htake, hdrop]
  simp only [hfr]
  rw [show ((a :: b :: []).drop (a :: b :: []).length) = ([] : List Char) from rfl]
  rw [amountToks_nil]

theorem formatCents_ne_empty (n : Nat) : formatCents n ≠ "" := by
  intro h
  have h2 := congrArg String.data h
  rw [show (formatCents n).data = Nat.toDigits 10 (n / 100) ++ '.' ::
    (if n % 100 < 10 then '0' :: Nat.toDigits 10 (n % 100) else Nat.toDigits 10 (n % 100))
    from rfl] at h2
  rw [show ("" : String).data = [] from rfl] at h2
  rcases List.append_eq_nil.mp h2 with ⟨_, h3⟩
  cases h3

/-- Normalizing a monetary token never yields the empty string: the
candidate captured on a `TOTAL` line is always non-empty. -/
theorem normalize_amount_token_ne {tok : List Char}
    (hshape : ∃ ds k a b, tok = ds ++ k :: a :: b :: [] ∧ ds ≠ [] ∧ ds.all isDig = true ∧
      (k = '.' ∨ k = ',') ∧ isDig a = true ∧ isDig b = true) :
    normalize_amount (String.mk tok) ≠ "" := by
  obtain ⟨ds, k, a, b, rfl, hne, hds, hk, ha, hb⟩ := hshape
  unfold normalize_amount
  rw [cleanedAmount_token hds hk ha hb]
  obtain ⟨c, ds', rfl⟩ : ∃ c ds', ds = c :: ds' := by
    cases ds with
    | nil => cases hne rfl
    | cons c t => exact ⟨c, t, rfl⟩
  have hlen : ((c :: ds') ++ '.' :: a :: b :: []).length = (ds'.length + 3) + 1 := by
    simp [List.length_append]
  unfold amountRuns
  rw [hlen, amountToks_shaped _ _ _ _ (by simp) hds ha hb]
  simp only [List.getLast?_singleton]
  exact fun h => formatCents_ne_empty _ h

theorem lastTotalCand_ne_empty : ∀ (lines : List String) (c : String),
    lastTotalCand lines = some c → c ≠ "" := by
  intro lines
  induction lines with
  | nil => intro c h; cases h
  | cons ln rest ih =>
    intro c h
    unfold lastTotalCand at h
    cases hrest : lastTotalCand rest with
    | some c2 =>
      rw [hrest] at h
      cases h
      exact ih _ hrest
    | none =>
      rw [hrest] at h
      by_cases hl : hasTotalTok ln = true
      · rw [if_pos hl] at h
        cases hget : (moneyRuns ln).getLast? with
        | some t =>
          rw [hget] at h
          cases h
          have htok : t ∈ moneyRuns ln := mem_of_getLast?_eq hget
          exact normalize_amount_token_ne (moneyToks_shape _ _ t htok)
        | none => rw [hget] at h; cases h
      · rw [if_neg hl] at h; cases h

/-- The loop of `detect_total` realizes the declarative resolution
policy `totalSpec`. -/
theorem detect_total_eq_totalSpec (lines : List String) :
    detect_total lines = totalSpec lines := by
  have h1 := totalLoop_fst lines 0 ""
  have h2 := totalLoop_snd lines 0 ""
  rw [Nat.zero_max] at h1
  unfold detect_total totalSpec
  dsimp only
  cases hcand : lastTotalCand lines with
  | none =>
    rw [hcand] at h2
    simp only [Option.getD_none] at h2
    rw [h2, h1]
    simp
  | some c =>
    rw [hcand] at h2
    simp only [Option.getD_some] at h2
    have hc : c ≠ "" := lastTotalCand_ne_empty lines c hcand
    rw [h2, h1]

/-- C4 as stated is false on a line whose only monetary token parses
to zero: a token exists and no `TOTAL` label is present, yet the
detector returns the empty string instead of the formatted maximum
`"0.00"`, because the fallback requires a strictly positive maximum. -/
theorem detect_total_zero_cx :
    detect_total ["0.00"] = "" ∧ moneyRuns "0.00" ≠ [] ∧ ("" : String) ≠ "0.00" :=
  ⟨by decide, by decide, by decide⟩

/-- C4 amended: the detector returns the non-empty candidate of the
last `TOTAL`-labelled token-carrying line when one exists; otherwise
the maximum token value formatted to two decimals when that maximum is
positive; otherwise the empty string.  In particular the two quoted
examples hold. -/
theorem detect_total_policy :
    (∀ lines, detect_total lines = totalSpec lines) ∧
      detect_total ["Subtotal 10.00", "TOTAL 25.50"] = "25.50" ∧
      detect_total ["12.00", "30.00"] = "30.00" :=
  ⟨detect_total_eq_totalSpec, by decide, by decide⟩

/-- C9: when several lines carry the `TOTAL` label together with a
monetary token, the detector returns the candidate of the last such
line — each later labelled line overwrites the earlier candidate. -/
theorem detect_total_last_label (lines : List String) (c : String)
    (h : lastTotalCand lines = some c) : detect_total lines = c := by
  rw [detect_total_eq_totalSpec]
  unfold totalSpec
  rw [h]
  exact if_pos (lastTotalCand_ne_empty lines c h)

theorem detect_total_last_label_witness :
    detect_total ["TOTAL 11.00", "TOTAL 22.00"] = "22.00" :=
  detect_total_last_label ["TOTAL 11.00", "TOTAL 22.00"] "22.00" (by decide)

theorem upChar_digit {c : Char} (h : isDig c = true) : upChar c = c := by
  simp only [isDig, Bool.and_eq_true, decide_eq_true_eq] at h
  unfold upChar
  rw [if_neg (by simp only [Bool.and_eq_true, decide_eq_true_eq, not_and]; omega)]

theorem digit_ne_R {c : Char} (h : isDig c = true) : c ≠ 'R' := by
  simp only [isDig, Bool.and_eq_true, decide_eq_true_eq] at h
  intro he
  rw [he] at h
  have hR : ('R').toNat = 82 := rfl
  omega

theorem upStr_digits {ds : List Char} (h : ds.all isDig = true) : upStr ds = ds := by
  unfold upStr
  have hmap : ds.map upChar = ds.map id :=
    List.map_congr_left (fun x hx => upChar_digit (List.all_eq_true.mp h x hx))
  rw [hmap, List.map_id]

theorem elevenAt_shape {s ds : List Char} (h : elevenAt s = some ds) :
    ds.length = 11 ∧ ds.all isDig = true := by
  unfold elevenAt at h
  dsimp only at h
  by_cases hc : ((s.take 11).length = 11 && (s.take 11).all isDig) = true
  · rw [if_pos hc] at h
    cases h
    simp only [Bool.and_eq_true, decide_eq_true_eq] at hc
    exact hc
  · rw [if_neg hc] at h
    cases h

theorem rucAt_shape {s ds : List Char} (h : rucAt s = some ds) :
    ds.length = 11 ∧ ds.all isDig = true := by
  unfold rucAt at h
  by_cases hp : (['R', 'U', 'C'].isPrefixOf s) = true
  · rw [if_pos hp] at h
    cases h2 : elevenAt (rucAfterLabel s) with
    | some ds2 =>
      rw [h2] at h
      cases h
      exact elevenAt_shape h2
    | none =>
      rw [h2] at h
      exact elevenAt_shape h
  · rw [if_neg hp] at h
    exact elevenAt_shape h

theorem searchIt_rucAt_shape : ∀ (s ds : List Char), searchIt rucAt s = some ds →
    ds.length = 11 ∧ ds.all isDig = true := by
  intro s
  induction s with
  | nil => intro ds h; cases h
  | cons c cs ih =>
    intro ds h
    rw [searchIt] at h
    cases hr : rucAt (c :: cs) with
    | some r =>
      rw [hr] at h
      cases h
      exact rucAt_shape hr
    | none =>
      rw [hr] at h
      exact ih ds h

theorem list_all_take {p : Char → Bool} {l : List Char} (h : l.all p = true) (n : Nat) :
    (l.take n).all p = true := by
  rw [List.all_eq_true] at h ⊢
  exact fun x hx => h x (List.take_subset n l hx)

theorem elevenAt_digits {ds : List Char} (hall : ds.all isDig = true)
    (hlen : 11 ≤ ds.length) : elevenAt ds = some (ds.take 11) := by
  have hcond : ((ds.take 11).length = 11 && (ds.take 11).all isDig) = true := by
    simp only [Bool.and_eq_true, decide_eq_true_eq]
    exact ⟨by rw [List.length_take]; exact Nat.min_eq_left hlen, list_all_take hall 11⟩
  unfold elevenAt
  dsimp only
  rw [if_pos hcond]

theorem rucAt_digits {c : Char} {t : List Char} (hall : (c :: t).all isDig = true)
    (hlen : 11 ≤ (c :: t).length) : rucAt (c :: t) = some ((c :: t).take 11) := by
  have hc : isDig c = true := List.all_eq_true.mp hall c (List.mem_cons_self c t)
  have hcR : ('R' == c) = false := by
    simp only [beq_eq_false_iff_ne]
    exact fun he => digit_ne_R hc he.symm
  have hpre : (['R', 'U', 'C'].isPrefixOf (c :: t)) = false := by
    simp [List.isPrefixOf, hcR]
  unfold rucAt
  rw [if_neg (by simp [hpre])]
  exact elevenAt_digits hall hlen

/-- C10: a non-empty tax-id result is always exactly eleven digits, and
on a line that is a digit run longer than eleven the first eleven
digits of the run are returned rather than the empty string. -/
theorem detect_ruc_eleven_digits :
    (∀ lines, detect_ruc lines ≠ "" →
      (detect_ruc lines).length = 11 ∧ (detect_ruc lines).data.all isDig = true) ∧
      (∀ ds : List Char, ds.all isDig = true → 11 ≤ ds.length →
        detect_ruc [String.mk ds] = String.mk (ds.take 11)) := by
  constructor
  · intro lines
    induction lines with
    | nil => intro h; cases h rfl
    | cons ln rest ih =>
      intro h
      cases hl : rucLine ln with
      | some d =>
        have hres : detect_ruc (ln :: rest) = d := by rw [detect_ruc, hl]
        rw [hres] at h ⊢
        unfold rucLine at hl
        cases hs : searchIt rucAt (upStr ln.data) with
        | none => rw [hs] at hl; cases hl
        | some ds =>
          rw [hs] at hl
          cases hl
          have hshape := searchIt_rucAt_shape _ ds hs
          exact ⟨hshape.1, hshape.2⟩
      | none =>
        have hres : detect_ruc (ln :: rest) = detect_ruc rest := by rw [detect_ruc, hl]
        rw [hres] at h ⊢
        exact ih h
  · intro ds hall hlen
    obtain ⟨c, t, rfl⟩ : ∃ c t, ds = c :: t := by
      cases ds with
      | nil => simp at hlen
      | cons c t => exact ⟨c, t, rfl⟩
    have hup : upStr (String.mk (c :: t)).data = c :: t := upStr_digits hall
    have hline : rucLine (String.mk (c :: t)) = some (String.mk ((c :: t).take 11)) := by
      unfold rucLine
      rw [hup, searchIt, rucAt_digits hall hlen]
      rfl
    rw [detect_ruc, hline]

theorem detect_ruc_eleven_digits_witness :
    ((detect_ruc ["abc 98765432109 xyz"]).length = 11 ∧
      (detect_ruc ["abc 98765432109 xyz"]).data.all isDig = true) ∧
      detect_ruc [String.mk (List.replicate 12 '7')] =
        String.mk ((List.replicate 12 '7').take 11) :=
  ⟨detect_ruc_eleven_digits.1 ["abc 98765432109 xyz"] (by decide),
   detect_ruc_eleven_digits.2 (List.replicate 12 '7') (by decide) (by decide)⟩

end ContaPro
